import Mathlib

/-!
Verification of the MJPEG frame-cache / relay core (`frame_cache.py`,
`cached_relay.py`) of the MoonVR repository.

The Python code is shallowly embedded: byte strings become `List Nat`,
wall-clock instants and durations become exact rationals `ℚ`, the
`deque` of cached frames becomes a `List` whose head is the oldest
frame, and each stateful method becomes an explicit state-passing
function.  Module-level constants keep their source names and values.
-/

/-! ## Constants (`frame_cache.py`, `cached_relay.py`) -/

def MAX_BUFFER_SIZE : Nat := 4 * 1024 * 1024

def BUFFER_TRIM_SIZE : Nat := 1024 * 1024

def RETRY_DELAY_MIN : ℚ := 1

def RETRY_DELAY_MAX : ℚ := 30

def RETRY_DELAY_MULTIPLIER : ℚ := 3 / 2

def CLIENT_QUEUE_SIZE : Nat := 50

/-! ## Data model -/

/-- One cached frame: JPEG bytes, capture instant, sequence number
(`CachedFrame` dataclass). -/
structure CachedFrame where
  data : List Nat
  timestamp : ℚ
  sequence : Nat
deriving DecidableEq, Repr

/-- The mutable state of one `FrameCache` instance: the frame deque
(head = oldest), the counters, the running flag and the configuration. -/
structure CacheState where
  frames : List CachedFrame
  sequence_counter : Nat
  frames_received : Nat
  frames_served : Nat
  upstream_errors : Nat
  running : Bool
  cache_duration : ℚ
  serve_delay : ℚ
deriving DecidableEq, Repr

/-- A fresh `FrameCache` as built by `FrameCache.__init__`. -/
def initCache (dur delay : ℚ) : CacheState :=
  { frames := [], sequence_counter := 0, frames_received := 0, frames_served := 0,
    upstream_errors := 0, running := false, cache_duration := dur, serve_delay := delay }

/-! ## `FrameCache.get_frame_to_serve` -/

/-- The scan loop of `get_frame_to_serve`: walk a frame list and return
the first frame whose timestamp is at most `t`.  The caller passes the
reversed deque, so the walk goes newest-to-oldest. -/
def serveScan (t : ℚ) : List CachedFrame → Option CachedFrame
  | [] => none
  | f :: rest => if f.timestamp ≤ t then some f else serveScan t rest

/-- `FrameCache.get_frame_to_serve`, as a state transformer.  `now` is
the value of `time.time()` at the call.  Returns the served bytes (if
any) and the updated state (`frames_served` is incremented exactly when
a frame is returned). -/
def get_frame_to_serve (st : CacheState) (now : ℚ) : Option (List Nat) × CacheState :=
  match serveScan (now - st.serve_delay) st.frames.reverse with
  | some f => (some f.data, { st with frames_served := st.frames_served + 1 })
  | none => (none, st)

/-! ## `FrameCache._cache_frame` -/

/-- The purge loop of `_cache_frame`: `while frames and
frames[0].timestamp < cutoff: frames.popleft()`. -/
def purgeOld (cutoff : ℚ) : List CachedFrame → List CachedFrame
  | [] => []
  | f :: rest => if f.timestamp < cutoff then purgeOld cutoff rest else f :: rest

/-- `FrameCache._cache_frame`: build the `CachedFrame`, bump the
counters, append it, then purge frames older than
`timestamp - cache_duration` from the front. -/
def cache_frame (st : CacheState) (frame_data : List Nat) (timestamp : ℚ) : CacheState :=
  { st with
    frames := purgeOld (timestamp - st.cache_duration)
      (st.frames ++ [⟨frame_data, timestamp, st.sequence_counter⟩]),
    sequence_counter := st.sequence_counter + 1,
    frames_received := st.frames_received + 1 }

/-- A run of the single ingestion thread: cache the given
(bytes, timestamp) pairs in order. -/
def runCache (st : CacheState) (inputs : List (List Nat × ℚ)) : CacheState :=
  inputs.foldl (fun s i => cache_frame s i.1 i.2) st

/-! ## `FrameCache.get_cache_status` -/

/-- The dictionary returned by `get_cache_status`. -/
structure CacheStatus where
  running : Bool
  frames_in_cache : Nat
  frames_received : Nat
  frames_served : Nat
  upstream_errors : Nat
  cache_duration : ℚ
  serve_delay : ℚ
  oldest_frame_age : ℚ
  newest_frame_age : ℚ
deriving DecidableEq, Repr

/-- `FrameCache.get_cache_status`, as a state transformer (`now` is the
value of `time.time()` during the call). -/
def get_cache_status (st : CacheState) (now : ℚ) : CacheStatus × CacheState :=
  ({ running := st.running
     frames_in_cache := st.frames.length
     frames_received := st.frames_received
     frames_served := st.frames_served
     upstream_errors := st.upstream_errors
     cache_duration := st.cache_duration
     serve_delay := st.serve_delay
     oldest_frame_age := match st.frames.head? with
       | some f => now - f.timestamp
       | none => 0
     newest_frame_age := match st.frames.getLast? with
       | some f => now - f.timestamp
       | none => 0 }, st)

/-! ## Properties of `get_frame_to_serve` (claims C1, C10) -/

lemma serveScan_reverse_eq_none {t : ℚ} {l : List CachedFrame} :
    serveScan t l.reverse = none ↔ ∀ f ∈ l, t < f.timestamp := by
  induction l using List.reverseRecOn with
  | nil => simp [serveScan]
  | append_singleton l x ih =>
    have hrw : (l ++ [x]).reverse = x :: l.reverse := by simp
    rw [hrw]
    simp only [serveScan]
    by_cases hx : x.timestamp ≤ t
    · rw [if_pos hx]
      constructor
      · intro h
        exact absurd h (by simp)
      · intro h
        exact absurd (h x (List.mem_append.mpr (Or.inr (by simp)))) (not_lt.mpr hx)
    · rw [if_neg hx, ih]
      constructor
      · intro h f hf
        rcases List.mem_append.mp hf with h' | h'
        · exact h f h'
        · simp only [List.mem_singleton] at h'
          exact h' ▸ not_le.mp hx
      · intro h f hf
        exact h f (List.mem_append.mpr (Or.inl hf))

lemma serveScan_reverse_eq_some {t : ℚ} {l : List CachedFrame} {f : CachedFrame}
    (h : serveScan t l.reverse = some f) :
    ∃ l₁ l₂, l = l₁ ++ f :: l₂ ∧ f.timestamp ≤ t ∧ ∀ g ∈ l₂, t < g.timestamp := by
  induction l using List.reverseRecOn with
  | nil => simp [serveScan] at h
  | append_singleton l x ih =>
    simp only [List.reverse_append, List.reverse_cons, List.reverse_nil, List.nil_append,
      List.cons_append, serveScan] at h
    by_cases hx : x.timestamp ≤ t
    · rw [if_pos hx, Option.some.injEq] at h
      exact ⟨l, [], by simp [h], h ▸ hx, by simp⟩
    · rw [if_neg hx] at h
      obtain ⟨l₁, l₂, hdec, hle, hafter⟩ := ih h
      refine ⟨l₁, l₂ ++ [x], by simp [hdec], hle, ?_⟩
      intro g hg
      rcases List.mem_append.mp hg with h' | h'
      · exact hafter g h'
      · simp only [List.mem_singleton] at h'
        exact h' ▸ not_le.mp hx

/-- C1: `get_frame_to_serve` computes `serve_time = now - serve_delay`, returns
the data of the newest retained frame whose timestamp is at most `serve_time`
(every frame retained after it is strictly newer than `serve_time`), and
returns `none` exactly when no retained frame has timestamp at most
`serve_time`; in particular it never returns a frame newer than
`now - serve_delay`. -/
theorem get_frame_to_serve_spec (st : CacheState) (now : ℚ) :
    ((get_frame_to_serve st now).1 = none ↔
      ∀ f ∈ st.frames, now - st.serve_delay < f.timestamp) ∧
    (∀ d, (get_frame_to_serve st now).1 = some d →
      ∃ f l₁ l₂, st.frames = l₁ ++ f :: l₂ ∧ f.data = d ∧
        f.timestamp ≤ now - st.serve_delay ∧
        ∀ g ∈ l₂, now - st.serve_delay < g.timestamp) := by
  unfold get_frame_to_serve
  cases h : serveScan (now - st.serve_delay) st.frames.reverse with
  | none =>
    refine ⟨by simpa using serveScan_reverse_eq_none.mp h, ?_⟩
    intro d hd
    simp at hd
  | some f =>
    constructor
    · simp only [iff_def]
      constructor
      · intro h'
        simp at h'
      · intro hall
        exact absurd h (by rw [serveScan_reverse_eq_none.mpr hall]; simp)
    · intro d hd
      simp only [Option.some.injEq] at hd
      obtain ⟨l₁, l₂, hdec, hle, hafter⟩ := serveScan_reverse_eq_some h
      exact ⟨f, l₁, l₂, hdec, hd, hle, hafter⟩

/-- A concrete cache state used by the witnesses: one frame with
timestamp 0, retention 15, serve delay 2. -/
def sampleState : CacheState :=
  { initCache 15 2 with frames := [⟨[7], 0, 0⟩] }

/-- Witness for C1 at a concrete state, queried at `now = 5`. -/
theorem get_frame_to_serve_spec_witness :
    ∃ f l₁ l₂,
      sampleState.frames = l₁ ++ f :: l₂ ∧
      f.data = [7] ∧ f.timestamp ≤ 5 - sampleState.serve_delay ∧
      ∀ g ∈ l₂, 5 - sampleState.serve_delay < g.timestamp :=
  (get_frame_to_serve_spec sampleState 5).2 [7]
    (by norm_num [get_frame_to_serve, serveScan, sampleState, initCache])

/-- C10: serving mutates only the `frames_served` counter (and only when a
frame is returned); the retained deque is untouched, a repeated call at the
same instant returns the same bytes, and `get_cache_status` mutates nothing. -/
theorem serve_and_status_pure (st : CacheState) (now : ℚ) :
    ((get_frame_to_serve st now).2.frames = st.frames) ∧
    ((get_frame_to_serve st now).1 = none → (get_frame_to_serve st now).2 = st) ∧
    (∀ d, (get_frame_to_serve st now).1 = some d →
      (get_frame_to_serve st now).2 = { st with frames_served := st.frames_served + 1 }) ∧
    ((get_frame_to_serve (get_frame_to_serve st now).2 now).1 =
      (get_frame_to_serve st now).1) ∧
    ((get_cache_status st now).2 = st) := by
  unfold get_frame_to_serve get_cache_status
  cases h : serveScan (now - st.serve_delay) st.frames.reverse <;>
    simp [h]

/-- Witness for C10: the conditional clauses discharged at a concrete state
where a frame is served. -/
theorem serve_and_status_pure_witness :
    (get_frame_to_serve sampleState 5).2 =
      { sampleState with frames_served := sampleState.frames_served + 1 } :=
  (serve_and_status_pure sampleState 5).2.2.1 [7]
    (by norm_num [get_frame_to_serve, serveScan, sampleState, initCache])

/-! ## Properties of `_cache_frame` (claims C2, C8) -/

lemma purgeOld_eq_filter {c : ℚ} {l : List CachedFrame}
    (h : List.Pairwise (fun f g => f.timestamp ≤ g.timestamp) l) :
    purgeOld c l = l.filter (fun f => decide (c ≤ f.timestamp)) := by
  induction l with
  | nil => rfl
  | cons f rest ih =>
    rcases List.pairwise_cons.mp h with ⟨hhead, htail⟩
    by_cases hf : f.timestamp < c
    · simp only [purgeOld, if_pos hf, List.filter_cons,
        decide_eq_true_eq]
      rw [if_neg (by simpa using not_le.mpr hf)]
      exact ih htail
    · simp only [purgeOld, if_neg hf, List.filter_cons, decide_eq_true_eq]
      rw [if_pos (by simpa using not_lt.mp hf)]
      congr 1
      symm
      rw [List.filter_eq_self]
      intro g hg
      simpa using le_trans (not_lt.mp hf) (hhead g hg)

lemma purgeOld_sublist (c : ℚ) (l : List CachedFrame) : List.Sublist (purgeOld c l) l := by
  induction l with
  | nil => exact List.Sublist.refl _
  | cons f rest ih =>
    by_cases hf : f.timestamp < c
    · simpa [purgeOld, if_pos hf] using ih.trans (List.sublist_cons_self f rest)
    · simp [purgeOld, if_neg hf]

/-- C2: inserting a frame purges exactly those retained frames older than
the new frame's timestamp minus the retention duration (under the
single-producer ordering invariant), so immediately after an insertion no
retained frame is older than the retention duration. -/
theorem cache_frame_retention (st : CacheState) (frame_data : List Nat) (ts : ℚ)
    (hsorted : List.Pairwise (fun f g => f.timestamp ≤ g.timestamp) st.frames)
    (hmono : ∀ f ∈ st.frames, f.timestamp ≤ ts) :
    (cache_frame st frame_data ts).frames
      = (st.frames ++ [CachedFrame.mk frame_data ts st.sequence_counter]).filter
          (fun f => decide (ts - st.cache_duration ≤ f.timestamp)) ∧
    ∀ f ∈ (cache_frame st frame_data ts).frames,
      ts - st.cache_duration ≤ f.timestamp := by
  have hpw : List.Pairwise (fun f g => f.timestamp ≤ g.timestamp)
      (st.frames ++ [CachedFrame.mk frame_data ts st.sequence_counter]) := by
    rw [List.pairwise_append]
    exact ⟨hsorted, List.pairwise_singleton _ _, fun a ha b hb => by
      simp only [List.mem_singleton] at hb
      exact hb ▸ hmono a ha⟩
  have heq : (cache_frame st frame_data ts).frames
      = (st.frames ++ [CachedFrame.mk frame_data ts st.sequence_counter]).filter
          (fun f => decide (ts - st.cache_duration ≤ f.timestamp)) := by
    exact purgeOld_eq_filter hpw
  refine ⟨heq, ?_⟩
  intro f hf
  rw [heq] at hf
  simpa using (List.mem_filter.mp hf).2

/-- The ordering invariant of a `FrameCache`: retained frames carry
strictly increasing sequence numbers and non-decreasing timestamps, and
every assigned sequence number is below the counter (so it is never
reused). -/
def CacheInv (st : CacheState) : Prop :=
  List.Pairwise (fun f g => f.sequence < g.sequence ∧ f.timestamp ≤ g.timestamp) st.frames ∧
  ∀ f ∈ st.frames, f.sequence < st.sequence_counter

lemma cache_frame_inv {st : CacheState} (d : List Nat) (ts : ℚ)
    (hinv : CacheInv st) (hmono : ∀ f ∈ st.frames, f.timestamp ≤ ts) :
    CacheInv (cache_frame st d ts) ∧
    ∀ f ∈ (cache_frame st d ts).frames, f.timestamp ≤ ts := by
  have hpw : List.Pairwise (fun f g => f.sequence < g.sequence ∧ f.timestamp ≤ g.timestamp)
      (st.frames ++ [CachedFrame.mk d ts st.sequence_counter]) := by
    rw [List.pairwise_append]
    refine ⟨hinv.1, List.pairwise_singleton _ _, ?_⟩
    intro a ha b hb
    simp only [List.mem_singleton] at hb
    exact hb ▸ ⟨hinv.2 a ha, hmono a ha⟩
  have hsub : List.Sublist (cache_frame st d ts).frames
      (st.frames ++ [CachedFrame.mk d ts st.sequence_counter]) :=
    purgeOld_sublist _ _
  have hmem : ∀ f ∈ (cache_frame st d ts).frames,
      f ∈ st.frames ++ [CachedFrame.mk d ts st.sequence_counter] :=
    fun f hf => hsub.subset hf
  refine ⟨⟨hpw.sublist hsub, ?_⟩, ?_⟩
  · intro f hf
    rcases List.mem_append.mp (hmem f hf) with h' | h'
    · exact Nat.lt_succ_of_lt (hinv.2 f h')
    · simp only [List.mem_singleton] at h'
      simp [cache_frame, h']
  · intro f hf
    rcases List.mem_append.mp (hmem f hf) with h' | h'
    · exact hmono f h'
    · simp only [List.mem_singleton] at h'
      simp [h']

lemma runCache_inv : ∀ (inputs : List (List Nat × ℚ)) (st : CacheState),
    CacheInv st → List.Pairwise (fun a b => a.2 ≤ b.2) inputs →
    (∀ f ∈ st.frames, ∀ i ∈ inputs, f.timestamp ≤ i.2) →
    CacheInv (runCache st inputs)
  | [], st, hinv, _, _ => hinv
  | i :: rest, st, hinv, hchrono, hts => by
    rcases List.pairwise_cons.mp hchrono with ⟨hhead, htail⟩
    have step := cache_frame_inv i.1 i.2 hinv
      (fun f hf => hts f hf i (List.mem_cons_self i rest))
    have hts' : ∀ f ∈ (cache_frame st i.1 i.2).frames, ∀ j ∈ rest, f.timestamp ≤ j.2 :=
      fun f hf j hj => le_trans (step.2 f hf) (hhead j hj)
    exact runCache_inv rest (cache_frame st i.1 i.2) step.1 htail hts'

/-- C8: starting from a fresh cache, after any run of insertions with
chronological timestamps the retained deque is ordered by strictly
increasing sequence number and non-decreasing timestamp, and every
retained sequence number is below the counter, so no sequence number is
ever duplicated or reused. -/
theorem runCache_ordering (dur delay : ℚ) (inputs : List (List Nat × ℚ))
    (hchrono : List.Pairwise (fun a b => a.2 ≤ b.2) inputs) :
    List.Pairwise (fun f g => f.sequence < g.sequence ∧ f.timestamp ≤ g.timestamp)
      (runCache (initCache dur delay) inputs).frames ∧
    ∀ f ∈ (runCache (initCache dur delay) inputs).frames,
      f.sequence < (runCache (initCache dur delay) inputs).sequence_counter :=
  runCache_inv inputs (initCache dur delay)
    ⟨List.Pairwise.nil, by intro f hf; simp [initCache] at hf⟩
    hchrono (by intro f hf; simp [initCache] at hf)

/-- Witness for C8: two insertions at times 0 and 1. -/
theorem runCache_ordering_witness :
    List.Pairwise (fun f g => f.sequence < g.sequence ∧ f.timestamp ≤ g.timestamp)
      (runCache (initCache 15 2) [([1], 0), ([2], 1)]).frames :=
  (runCache_ordering 15 2 [([1], 0), ([2], 1)]
    (by simp only [List.pairwise_cons, List.mem_singleton, List.Pairwise.nil]
        norm_num)).1

/-- A concrete cache state used by the C2 witness: one frame with
timestamp 0, retention 3. -/
def sampleRetainState : CacheState :=
  { initCache 3 2 with frames := [⟨[0], 0, 0⟩], sequence_counter := 1 }

/-- Witness for C2: a one-frame cache (timestamp 0) receiving a frame at
time 10 with retention 3 purges the old frame. -/
theorem cache_frame_retention_witness :
    (cache_frame sampleRetainState [1] 10).frames
      = (sampleRetainState.frames ++ [CachedFrame.mk [1] 10 sampleRetainState.sequence_counter]).filter
          (fun f => decide ((10 : ℚ) - sampleRetainState.cache_duration ≤ f.timestamp)) :=
  (cache_frame_retention sampleRetainState [1] 10
      (by simp [sampleRetainState, initCache])
      (by norm_num [sampleRetainState, initCache])).1


/-! ## Lifecycle operations (claim C9) -/

/-- The control state behind `FrameCache.start` / `FrameCache.stop`:
the `running` flag plus a count of ingestion threads ever launched. -/
structure Lifecycle where
  running : Bool
  threads_started : Nat
deriving DecidableEq, Repr

/-- A component that was never started. -/
def initLifecycle : Lifecycle := { running := false, threads_started := 0 }

namespace FrameCache

/-- `FrameCache.start`: return immediately if already running, otherwise
set the flag and launch the single ingestion thread. -/
def start (st : Lifecycle) : Lifecycle :=
  if st.running then st
  else { running := true, threads_started := st.threads_started + 1 }

/-- `FrameCache.stop`: clear the running flag (joining the thread does
not change the control state). -/
def stop (st : Lifecycle) : Lifecycle :=
  { st with running := false }

end FrameCache

/-- `CachedMediaRelay.remove_client`: `self.clients.discard(client_queue)`,
on the set of registered viewer sessions. -/
def remove_client (clients : Finset ℕ) (session : ℕ) : Finset ℕ :=
  clients.erase session

/-- C9: `start` on a running component is a no-op launching no second
ingestion thread; `stop` on a never-started component is a no-op returning
without error; `remove_client` of an absent session is a no-op, and
removal is idempotent. -/
theorem lifecycle_noop_spec :
    (∀ st : Lifecycle, st.running = true → FrameCache.start st = st) ∧
    (FrameCache.stop initLifecycle = initLifecycle) ∧
    (∀ (c : Finset ℕ) (s : ℕ), s ∉ c → remove_client c s = c) ∧
    (∀ (c : Finset ℕ) (s : ℕ),
      remove_client (remove_client c s) s = remove_client c s) := by
  refine ⟨?_, rfl, ?_, ?_⟩
  · intro st h
    simp [FrameCache.start, h]
  · intro c s h
    simp [remove_client, Finset.erase_eq_of_not_mem h]
  · intro c s
    simp [remove_client]

/-- Witness for C9 at concrete states. -/
theorem lifecycle_noop_spec_witness :
    FrameCache.start ⟨true, 1⟩ = (⟨true, 1⟩ : Lifecycle) ∧
    remove_client ({3} : Finset ℕ) 5 = ({3} : Finset ℕ) :=
  ⟨lifecycle_noop_spec.1 ⟨true, 1⟩ rfl,
   lifecycle_noop_spec.2.2.1 {3} 5 (by decide)⟩

/-! ## Reconnect backoff (claim C6) -/

/-- Outcome of one iteration of `FrameCache._fetch_worker`'s
`while self.running` loop: the connection attempt fails outright, or it
succeeds (resetting the retry delay) and the stream later ends cleanly,
or it succeeds and the stream later dies with an exception. -/
inductive FetchOutcome
  | connectFail
  | connectOkClean
  | connectOkThenStreamFail
deriving DecidableEq, Repr

/-- The sleeps performed by `_fetch_worker`, starting from retry delay
`d`, for a given sequence of iteration outcomes.  On an exception the
worker sleeps the current delay, then multiplies it by
`RETRY_DELAY_MULTIPLIER` clamping at `RETRY_DELAY_MAX`; on a successful
connection it first resets the delay to `RETRY_DELAY_MIN`. -/
def run_backoff : ℚ → List FetchOutcome → List ℚ
  | _, [] => []
  | d, .connectFail :: rest =>
      d :: run_backoff (min (d * RETRY_DELAY_MULTIPLIER) RETRY_DELAY_MAX) rest
  | _, .connectOkClean :: rest => run_backoff RETRY_DELAY_MIN rest
  | _, .connectOkThenStreamFail :: rest =>
      RETRY_DELAY_MIN ::
        run_backoff (min (RETRY_DELAY_MIN * RETRY_DELAY_MULTIPLIER) RETRY_DELAY_MAX) rest

/-- The retry delay held by `_fetch_worker` after a sequence of outcomes. -/
def delayAfter : ℚ → List FetchOutcome → ℚ
  | d, [] => d
  | d, .connectFail :: rest =>
      delayAfter (min (d * RETRY_DELAY_MULTIPLIER) RETRY_DELAY_MAX) rest
  | _, .connectOkClean :: rest => delayAfter RETRY_DELAY_MIN rest
  | _, .connectOkThenStreamFail :: rest =>
      delayAfter (min (RETRY_DELAY_MIN * RETRY_DELAY_MULTIPLIER) RETRY_DELAY_MAX) rest

lemma run_backoff_append : ∀ (xs : List FetchOutcome) (d : ℚ) (ys : List FetchOutcome),
    run_backoff d (xs ++ ys) = run_backoff d xs ++ run_backoff (delayAfter d xs) ys
  | [], d, ys => by simp [run_backoff, delayAfter]
  | .connectFail :: rest, d, ys => by
      simp [run_backoff, delayAfter, run_backoff_append rest]
  | .connectOkClean :: rest, d, ys => by
      simp [run_backoff, delayAfter, run_backoff_append rest]
  | .connectOkThenStreamFail :: rest, d, ys => by
      simp [run_backoff, delayAfter, run_backoff_append rest]

lemma run_backoff_replicate_length : ∀ (M : Nat) (d : ℚ),
    (run_backoff d (List.replicate M .connectFail)).length = M
  | 0, _ => rfl
  | M + 1, d => by
      simp [List.replicate_succ, run_backoff, run_backoff_replicate_length M]

lemma run_backoff_replicate_head (M : Nat) (d : ℚ) (h : 0 < M) :
    (run_backoff d (List.replicate M .connectFail))[0]? = some d := by
  cases M with
  | zero => omega
  | succ M => simp [List.replicate_succ, run_backoff]

lemma run_backoff_replicate_rec : ∀ (i M : Nat) (d : ℚ), i + 1 < M →
    (run_backoff d (List.replicate M .connectFail))[i + 1]?
      = ((run_backoff d (List.replicate M .connectFail))[i]?).map
          (fun x => min (x * RETRY_DELAY_MULTIPLIER) RETRY_DELAY_MAX)
  | 0, M, d, h => by
      match M, h with
      | M + 2, _ =>
        simp [List.replicate_succ, run_backoff,
          run_backoff_replicate_head (M + 1) _ (Nat.succ_pos M)]
  | i + 1, M, d, h => by
      match M, h with
      | M + 1, h =>
        have ih := run_backoff_replicate_rec i M
          (min (d * RETRY_DELAY_MULTIPLIER) RETRY_DELAY_MAX) (by omega)
        simp only [List.replicate_succ, run_backoff, List.getElem?_cons_succ]
        exact ih

/-- C6: the sleeps between consecutive failed connection attempts follow
the recurrence `next = min (previous * RETRY_DELAY_MULTIPLIER)
RETRY_DELAY_MAX`; the first sleep after any successful connection is
`RETRY_DELAY_MIN` regardless of the earlier history (the delay is reset),
and a fresh worker also starts from `RETRY_DELAY_MIN`. -/
theorem reconnect_backoff (d₀ : ℚ) (pre : List FetchOutcome) (M : Nat) :
    (run_backoff d₀ (pre ++ .connectOkClean :: List.replicate M .connectFail)
      = run_backoff d₀ pre
          ++ run_backoff RETRY_DELAY_MIN (List.replicate M .connectFail)) ∧
    (run_backoff RETRY_DELAY_MIN (List.replicate M .connectFail)).length = M ∧
    (0 < M →
      (run_backoff RETRY_DELAY_MIN (List.replicate M .connectFail))[0]?
        = some RETRY_DELAY_MIN) ∧
    (∀ i, i + 1 < M →
      (run_backoff RETRY_DELAY_MIN (List.replicate M .connectFail))[i + 1]?
        = ((run_backoff RETRY_DELAY_MIN (List.replicate M .connectFail))[i]?).map
            (fun x => min (x * RETRY_DELAY_MULTIPLIER) RETRY_DELAY_MAX)) := by
  refine ⟨?_, run_backoff_replicate_length M _,
    run_backoff_replicate_head M _, fun i hi => run_backoff_replicate_rec i M _ hi⟩
  rw [run_backoff_append]
  simp [run_backoff]

/-- Witness for C6: two consecutive failures after a success. -/
theorem reconnect_backoff_witness :
    (run_backoff RETRY_DELAY_MIN (List.replicate 2 .connectFail))[0]?
      = some RETRY_DELAY_MIN ∧
    (run_backoff RETRY_DELAY_MIN (List.replicate 2 .connectFail))[1]?
      = ((run_backoff RETRY_DELAY_MIN (List.replicate 2 .connectFail))[0]?).map
          (fun x => min (x * RETRY_DELAY_MULTIPLIER) RETRY_DELAY_MAX) :=
  ⟨(reconnect_backoff 5 [] 2).2.2.1 (by norm_num),
   (reconnect_backoff 5 [] 2).2.2.2 0 (by norm_num)⟩

/-! ## Egress envelope (claim C7) -/

/-- Bytes of an ASCII string literal. -/
def strBytes (s : String) : List Nat := s.data.map Char.toNat

/-- Decimal digits of `n`, most significant first. -/
def decDigits (n : Nat) : List Nat :=
  if n < 10 then [n] else decDigits (n / 10) ++ [n % 10]
termination_by n
decreasing_by exact Nat.div_lt_self (by omega) (by omega)

/-- Python's `str(n).encode("ascii")` for a natural number. -/
def str_of_nat (n : Nat) : List Nat := (decDigits n).map (· + 48)

/-- The multipart envelope built by `CachedMediaRelay._stream_worker`. -/
def multipart_frame (frame_data : List Nat) : List Nat :=
  strBytes "--frame\r\n"
    ++ strBytes "Content-Type: image/jpeg\r\n"
    ++ (strBytes "Content-Length: " ++ str_of_nat frame_data.length ++ strBytes "\r\n\r\n")
    ++ frame_data ++ strBytes "\r\n"

lemma decDigits_foldl (n : Nat) :
    (decDigits n).foldl (fun a c => 10 * a + c) 0 = n := by
  induction n using Nat.strong_induction_on with
  | _ n ih =>
    by_cases h : n < 10
    · rw [decDigits, if_pos h]
      simp
    · rw [decDigits, if_neg h, List.foldl_append]
      have := ih (n / 10) (Nat.div_lt_self (by omega) (by omega))
      simp [this, Nat.div_add_mod]

lemma decDigits_lt (n : Nat) : ∀ c ∈ decDigits n, c < 10 := by
  induction n using Nat.strong_induction_on with
  | _ n ih =>
    by_cases h : n < 10
    · rw [decDigits, if_pos h]
      simpa using h
    · rw [decDigits, if_neg h]
      intro c hc
      rcases List.mem_append.mp hc with h' | h'
      · exact ih (n / 10) (Nat.div_lt_self (by omega) (by omega)) c h'
      · simp only [List.mem_singleton] at h'
        exact h' ▸ Nat.mod_lt _ (by omega)

/-- C7: the envelope is exactly the boundary line, the content-type
header, the content-length header carrying the ASCII decimal byte length
of the payload, a blank line, the payload, and a trailing CRLF; the
length field genuinely is the decimal representation of the payload
length (its digits are ASCII digits and evaluate back to the length). -/
theorem multipart_frame_spec (d : List Nat) :
    multipart_frame d
      = [45, 45, 102, 114, 97, 109, 101, 13, 10]
        ++ [67, 111, 110, 116, 101, 110, 116, 45, 84, 121, 112, 101, 58, 32,
            105, 109, 97, 103, 101, 47, 106, 112, 101, 103, 13, 10]
        ++ [67, 111, 110, 116, 101, 110, 116, 45, 76, 101, 110, 103, 116, 104,
            58, 32]
        ++ str_of_nat d.length ++ [13, 10] ++ [13, 10] ++ d ++ [13, 10] ∧
    (str_of_nat d.length).foldl (fun a c => 10 * a + (c - 48)) 0 = d.length ∧
    ∀ c ∈ str_of_nat d.length, 48 ≤ c ∧ c ≤ 57 := by
  refine ⟨?_, ?_, ?_⟩
  · have h1 : strBytes "--frame\r\n" = [45, 45, 102, 114, 97, 109, 101, 13, 10] := by decide
    have h2 : strBytes "Content-Type: image/jpeg\r\n"
        = [67, 111, 110, 116, 101, 110, 116, 45, 84, 121, 112, 101, 58, 32,
           105, 109, 97, 103, 101, 47, 106, 112, 101, 103, 13, 10] := by decide
    have h3 : strBytes "Content-Length: "
        = [67, 111, 110, 116, 101, 110, 116, 45, 76, 101, 110, 103, 116, 104,
           58, 32] := by decide
    have h4 : strBytes "\r\n\r\n" = [13, 10, 13, 10] := by decide
    have h5 : strBytes "\r\n" = [13, 10] := by decide
    simp [multipart_frame, h1, h2, h3, h4, h5]
  · rw [str_of_nat, List.foldl_map]
    have : ∀ (a c : Nat), 10 * a + (c + 48 - 48) = 10 * a + c := by omega
    simp only [this]
    exact decDigits_foldl d.length
  · intro c hc
    rw [str_of_nat] at hc
    obtain ⟨x, hx, rfl⟩ := List.mem_map.mp hc
    have := decDigits_lt d.length x hx
    omega

/-! ## Relay fan-out and backpressure (claim C5) -/

/-- `queue.Queue.put_nowait` on a bounded queue modelled as a list
(head = oldest): fails (returns `none`, i.e. raises `queue.Full`) iff the
queue is at capacity `CLIENT_QUEUE_SIZE`. -/
def put_nowait (q : List (List Nat)) (x : List Nat) : Option (List (List Nat)) :=
  if q.length < CLIENT_QUEUE_SIZE then some (q ++ [x]) else none

/-- `queue.Queue.get_nowait`: pop the oldest element, or fail (raise
`queue.Empty`) on an empty queue. -/
def get_nowait : List (List Nat) → Option (List Nat × List (List Nat))
  | [] => none
  | x :: rest => some (x, rest)

/-- The per-viewer body of `CachedMediaRelay._distribute_frame`: try a
non-blocking put; on `queue.Full`, drop the oldest envelope and retry the
put once; if still full, mark the queue dead.  Returns the updated queue
and the dead mark, or `none` for the uncaught `queue.Empty` path. -/
def tryEnq (q : List (List Nat)) (env : List Nat) : Option (List (List Nat) × Bool) :=
  match put_nowait q env with
  | some q' => some (q', false)
  | none =>
    match get_nowait q with
    | none => none
    | some (_, q') =>
      match put_nowait q' env with
      | some q'' => some (q'', false)
      | none => some (q', true)

/-- The fan-out pass of `_distribute_frame` over a snapshot of the viewer
set: every queue is processed (mutated) in order, dead marks are collected
and acted on only after the pass. -/
def distributeLoop (env : List Nat) : List (List (List Nat)) →
    Option (List (List (List Nat) × Bool))
  | [] => some []
  | q :: rest =>
    match tryEnq q env with
    | none => none
    | some r =>
      match distributeLoop env rest with
      | none => none
      | some rs => some (r :: rs)

/-- `CachedMediaRelay._distribute_frame`: run the fan-out pass, then
remove the dead viewers from the active set. -/
def distribute_frame (clients : List (List (List Nat))) (env : List Nat) :
    Option (List (List (List Nat))) :=
  match distributeLoop env clients with
  | none => none
  | some rs => some ((rs.filter (fun r => !r.2)).map Prod.fst)

/-- The backpressure policy as the spec states it, per queue: a queue with
capacity receives the envelope at the back; a full queue loses its oldest
envelope and then receives the new one; a queue still full after that one
eviction is marked dead. -/
def policyStep (q : List (List Nat)) (env : List Nat) : List (List Nat) × Bool :=
  if q.length < CLIENT_QUEUE_SIZE then (q ++ [env], false)
  else if q.tail.length < CLIENT_QUEUE_SIZE then (q.tail ++ [env], false)
  else (q.tail, true)

lemma tryEnq_eq_policyStep (q : List (List Nat)) (env : List Nat) :
    tryEnq q env = some (policyStep q env) := by
  by_cases h : q.length < CLIENT_QUEUE_SIZE
  · simp [tryEnq, put_nowait, policyStep, h]
  · cases q with
    | nil => simp [CLIENT_QUEUE_SIZE] at h
    | cons x rest =>
      have h2 : ¬ rest.length + 1 < CLIENT_QUEUE_SIZE := by simpa using h
      by_cases h' : rest.length < CLIENT_QUEUE_SIZE
      · simp [tryEnq, put_nowait, get_nowait, policyStep, h, h2, h']
      · simp [tryEnq, put_nowait, get_nowait, policyStep, h, h2, h']

lemma distributeLoop_eq_map (env : List Nat) :
    ∀ clients : List (List (List Nat)),
      distributeLoop env clients = some (clients.map (fun q => policyStep q env))
  | [] => rfl
  | q :: rest => by
      simp [distributeLoop, tryEnq_eq_policyStep, distributeLoop_eq_map env rest]

/-- C5: the fan-out over a snapshot of the viewer set never raises: every
queue with capacity receives the same envelope appended at the back; a
full queue drops its single oldest envelope and receives the new one; a
queue still full after that one eviction is marked dead, and exactly the
dead queues are removed from the active set, only after the pass over the
whole snapshot completes (every queue is processed). -/
theorem distribute_frame_spec (clients : List (List (List Nat))) (env : List Nat) :
    (∀ q, q.length < CLIENT_QUEUE_SIZE → tryEnq q env = some (q ++ [env], false)) ∧
    (∀ q, CLIENT_QUEUE_SIZE ≤ q.length →
      tryEnq q env = some (if q.tail.length < CLIENT_QUEUE_SIZE
        then (q.tail ++ [env], false) else (q.tail, true))) ∧
    distribute_frame clients env
      = some (((clients.map (fun q => policyStep q env)).filter
          (fun r => !r.2)).map Prod.fst) := by
  refine ⟨?_, ?_, ?_⟩
  · intro q hq
    rw [tryEnq_eq_policyStep]
    simp [policyStep, hq]
  · intro q hq
    rw [tryEnq_eq_policyStep]
    by_cases h' : q.tail.length < CLIENT_QUEUE_SIZE
    · simp [policyStep, Nat.not_lt.mpr hq, h']
    · simp [policyStep, Nat.not_lt.mpr hq, h']
  · rw [distribute_frame, distributeLoop_eq_map]

/-- Witness for C5: an empty queue and a full queue, with envelope `[9]`. -/
theorem distribute_frame_spec_witness :
    tryEnq [] [9] = some ([[9]], false) ∧
    tryEnq (List.replicate CLIENT_QUEUE_SIZE [0]) [9]
      = some (if (List.replicate CLIENT_QUEUE_SIZE ([0] : List Nat)).tail.length
            < CLIENT_QUEUE_SIZE
          then ((List.replicate CLIENT_QUEUE_SIZE ([0] : List Nat)).tail ++ [[9]], false)
          else ((List.replicate CLIENT_QUEUE_SIZE ([0] : List Nat)).tail, true)) :=
  ⟨(distribute_frame_spec [] [9]).1 [] (by simp [CLIENT_QUEUE_SIZE]),
   (distribute_frame_spec [] [9]).2.1 (List.replicate CLIENT_QUEUE_SIZE [0]) (by simp)⟩

/-! ## MJPEG demultiplexing (claims C3, C4) -/

/-- Occurrence of the two-byte pattern `a b` at index `i` of `l`. -/
def occAt (a b : Nat) (l : List Nat) (i : Nat) : Prop :=
  l[i]? = some a ∧ l[i + 1]? = some b

instance occAt_decidable (a b : Nat) (l : List Nat) (i : Nat) : Decidable (occAt a b l i) :=
  inferInstanceAs (Decidable (l[i]? = some a ∧ l[i + 1]? = some b))

/-- Python `bytes.find` for a two-byte needle `a b`: index of the first
occurrence, if any. -/
def find2 (a b : Nat) : List Nat → Option Nat
  | [] => none
  | [_] => none
  | x :: y :: rest =>
    if x = a ∧ y = b then some 0 else (find2 a b (y :: rest)).map (· + 1)

lemma occAt_cons_succ {a b x : Nat} {t : List Nat} {j : Nat} :
    occAt a b (x :: t) (j + 1) ↔ occAt a b t j := by
  simp [occAt]

lemma occAt_cons_cons_zero {a b x y : Nat} {rest : List Nat} :
    occAt a b (x :: y :: rest) 0 ↔ x = a ∧ y = b := by
  simp [occAt, eq_comm]


lemma occAt_nil {a b : Nat} {i : Nat} : ¬ occAt a b ([] : List Nat) i := by
  simp [occAt]

lemma occAt_singleton {a b x : Nat} {i : Nat} : ¬ occAt a b [x] i := by
  intro h
  rcases h with ⟨h1, h2⟩
  cases i with
  | zero => simp at h2
  | succ i => simp at h1

lemma find2_eq_none_iff {a b : Nat} : ∀ {l : List Nat},
    find2 a b l = none ↔ ∀ i, ¬ occAt a b l i
  | [] => by
      simp only [find2, true_iff]
      exact fun i => occAt_nil
  | [x] => by
      simp only [find2, true_iff]
      exact fun i => occAt_singleton
  | x :: y :: rest => by
      by_cases hxy : x = a ∧ y = b
      · simp only [find2, if_pos hxy]
        constructor
        · intro h
          exact absurd h (by simp)
        · intro h
          exact absurd (occAt_cons_cons_zero.mpr hxy) (h 0)
      · simp only [find2, if_neg hxy, Option.map_eq_none']
        rw [find2_eq_none_iff (l := y :: rest)]
        constructor
        · intro h i
          cases i with
          | zero => exact fun hc => hxy (occAt_cons_cons_zero.mp hc)
          | succ j => exact fun hc => h j (occAt_cons_succ.mp hc)
        · intro h j
          exact fun hc => h (j + 1) (occAt_cons_succ.mpr hc)

lemma find2_eq_some_iff {a b : Nat} : ∀ {l : List Nat} {k : Nat},
    find2 a b l = some k ↔ (occAt a b l k ∧ ∀ j, j < k → ¬ occAt a b l j)
  | [], k => by
      constructor
      · intro h
        simp [find2] at h
      · intro h
        exact absurd h.1 occAt_nil
  | [x], k => by
      constructor
      · intro h
        simp [find2] at h
      · intro h
        exact absurd h.1 occAt_singleton
  | x :: y :: rest, k => by
      by_cases hxy : x = a ∧ y = b
      · simp only [find2, if_pos hxy]
        constructor
        · intro h
          obtain rfl : 0 = k := Option.some.inj h
          exact ⟨occAt_cons_cons_zero.mpr hxy, by omega⟩
        · intro h
          rcases h with ⟨hocc, hmin⟩
          cases k with
          | zero => rfl
          | succ j => exact absurd (occAt_cons_cons_zero.mpr hxy) (hmin 0 (by omega))
      · simp only [find2, if_neg hxy]
        constructor
        · intro h
          rcases Option.map_eq_some'.mp h with ⟨k', hk', rfl⟩
          rcases (find2_eq_some_iff (l := y :: rest)).mp hk' with ⟨hocc, hmin⟩
          refine ⟨occAt_cons_succ.mpr hocc, ?_⟩
          intro j hj
          cases j with
          | zero => exact fun hc => hxy (occAt_cons_cons_zero.mp hc)
          | succ j' => exact fun hc => hmin j' (by omega) (occAt_cons_succ.mp hc)
        · intro h
          rcases h with ⟨hocc, hmin⟩
          cases k with
          | zero => exact absurd (occAt_cons_cons_zero.mp hocc) hxy
          | succ k' =>
            have hfind : find2 a b (y :: rest) = some k' :=
              (find2_eq_some_iff (l := y :: rest)).mpr
                ⟨occAt_cons_succ.mp hocc,
                 fun j hj hc => hmin (j + 1) (by omega) (occAt_cons_succ.mpr hc)⟩
            simp [hfind]

lemma occAt_lt_length {a b : Nat} {l : List Nat} {i : Nat} (h : occAt a b l i) :
    i + 2 ≤ l.length := by
  rcases h with ⟨_, h2⟩
  obtain ⟨hlt, -⟩ := List.getElem?_eq_some.mp h2
  omega

lemma find2_some_le_length {a b : Nat} {l : List Nat} {k : Nat}
    (h : find2 a b l = some k) : k + 2 ≤ l.length :=
  occAt_lt_length (find2_eq_some_iff.mp h).1

/-- Python `buffer.find(needle, start)` for the two-byte needle `a b`. -/
def pyFind (a b : Nat) (buf : List Nat) (start : Nat) : Option Nat :=
  (find2 a b (buf.drop start)).map (· + start)

lemma pyFind_some_le_length {a b : Nat} {buf : List Nat} {s k : Nat}
    (h : pyFind a b buf s = some k) : k + 2 ≤ buf.length ∧ s ≤ k := by
  rcases Option.map_eq_some'.mp h with ⟨k', hk', rfl⟩
  have hlen := find2_some_le_length hk'
  rw [List.length_drop] at hlen
  omega

/-- The `while True` frame-extraction loop of
`FrameCache._parse_mjpeg_stream`, run to completion on one buffer:
repeatedly find a JPEG start marker `FF D8` and, after it, an end marker
`FF D9`; each complete frame (from the start marker through the end
marker inclusive) is recorded and the consumed bytes (everything up to
and including the end marker) are removed.  If a start marker is present
with no end marker and the buffer exceeds `MAX_BUFFER_SIZE`, the buffer
is trimmed to its last `BUFFER_TRIM_SIZE` bytes.  Returns the recorded
frames in order and the final buffer. -/
def extractFrames (buf : List Nat) : List (List Nat) × List Nat :=
  match _h1 : pyFind 0xFF 0xD8 buf 0 with
  | none => ([], buf)
  | some s =>
    match h2 : pyFind 0xFF 0xD9 buf (s + 2) with
    | none =>
      ([], if MAX_BUFFER_SIZE < buf.length
        then buf.drop (buf.length - BUFFER_TRIM_SIZE) else buf)
    | some e =>
      let res := extractFrames (buf.drop (e + 2))
      ((buf.take (e + 2)).drop s :: res.1, res.2)
termination_by buf.length
decreasing_by
  have := pyFind_some_le_length h2
  simp only [List.length_drop]
  omega

lemma extractFrames_eq_noSOI {buf : List Nat} (h : pyFind 0xFF 0xD8 buf 0 = none) :
    extractFrames buf = ([], buf) := by
  rw [extractFrames]
  split
  · rfl
  · next s h1 => rw [h] at h1; exact absurd h1 (by simp)

lemma extractFrames_eq_noEOI {buf : List Nat} {s : Nat}
    (h1 : pyFind 0xFF 0xD8 buf 0 = some s) (h2 : pyFind 0xFF 0xD9 buf (s + 2) = none) :
    extractFrames buf = ([], if MAX_BUFFER_SIZE < buf.length
      then buf.drop (buf.length - BUFFER_TRIM_SIZE) else buf) := by
  rw [extractFrames]
  split
  · next h => rw [h1] at h; exact absurd h (by simp)
  · next s' h =>
    rw [h1] at h
    obtain rfl : s = s' := Option.some.inj h
    split
    · rfl
    · next e h' => rw [h2] at h'; exact absurd h' (by simp)

lemma extractFrames_eq_frame {buf : List Nat} {s e : Nat}
    (h1 : pyFind 0xFF 0xD8 buf 0 = some s) (h2 : pyFind 0xFF 0xD9 buf (s + 2) = some e) :
    extractFrames buf = ((buf.take (e + 2)).drop s :: (extractFrames (buf.drop (e + 2))).1,
      (extractFrames (buf.drop (e + 2))).2) := by
  rw [extractFrames]
  split
  · next h => rw [h1] at h; exact absurd h (by simp)
  · next s' h =>
    rw [h1] at h
    obtain rfl : s = s' := Option.some.inj h
    split
    · next h' => rw [h2] at h'; exact absurd h' (by simp)
    · next e' h' =>
      rw [h2] at h'
      obtain rfl : e = e' := Option.some.inj h'
      rfl

/-- One iteration of the `for chunk in response.iter_content(...)` loop of
`_parse_mjpeg_stream`: skip an empty chunk, otherwise append the chunk to
the accumulation buffer and run the extraction loop.  The state is the
list of frames recorded so far (in order, as handed to `_cache_frame`)
and the accumulation buffer. -/
def processChunk (st : List (List Nat) × List Nat) (chunk : List Nat) :
    List (List Nat) × List Nat :=
  if chunk = [] then st
  else
    let r := extractFrames (st.2 ++ chunk)
    (st.1 ++ r.1, r.2)

/-- `_parse_mjpeg_stream` over a whole connection: fold the chunk loop
over the received chunks, starting from an empty buffer. -/
def processStream (chunks : List (List Nat)) : List (List Nat) × List Nat :=
  chunks.foldl processChunk ([], [])

/-- A well-formed JPEG blob in the sense of the upstream contract: it
begins with the start marker `FF D8`, ends with the end marker `FF D9`,
and contains no interior occurrence of `FF D9`. -/
def wellFormedJpeg (b : List Nat) : Prop :=
  (∃ core : List Nat, b = 0xFF :: 0xD8 :: (core ++ [0xFF, 0xD9])) ∧
  ∀ i, i + 2 < b.length → ¬ occAt 0xFF 0xD9 b i

lemma pyFind_zero (a b : Nat) (buf : List Nat) : pyFind a b buf 0 = find2 a b buf := by
  simp [pyFind]

lemma occAt_drop {a b : Nat} {buf : List Nat} {s j : Nat} :
    occAt a b (buf.drop s) j ↔ occAt a b buf (s + j) := by
  unfold occAt
  rw [List.getElem?_drop, List.getElem?_drop]
  constructor
  · intro h
    refine ⟨h.1, ?_⟩
    have := h.2
    rwa [show s + (j + 1) = s + j + 1 by omega] at this
  · intro h
    refine ⟨h.1, ?_⟩
    have := h.2
    rwa [show s + j + 1 = s + (j + 1) by omega] at this

lemma pyFind_eq_none_iff {a b : Nat} {buf : List Nat} {s : Nat} :
    pyFind a b buf s = none ↔ ∀ j, s ≤ j → ¬ occAt a b buf j := by
  unfold pyFind
  rw [Option.map_eq_none', find2_eq_none_iff]
  constructor
  · intro h j hj
    have := h (j - s)
    rw [occAt_drop, show s + (j - s) = j by omega] at this
    exact this
  · intro h i
    rw [occAt_drop]
    exact h (s + i) (by omega)

lemma pyFind_eq_some_iff {a b : Nat} {buf : List Nat} {s k : Nat} :
    pyFind a b buf s = some k ↔
      (s ≤ k ∧ occAt a b buf k ∧ ∀ j, s ≤ j → j < k → ¬ occAt a b buf j) := by
  unfold pyFind
  constructor
  · intro h
    rcases Option.map_eq_some'.mp h with ⟨k', hk', rfl⟩
    rcases find2_eq_some_iff.mp hk' with ⟨hocc, hmin⟩
    rw [occAt_drop] at hocc
    refine ⟨by omega, by rwa [Nat.add_comm] at hocc, ?_⟩
    intro j hj hjk
    have := hmin (j - s) (by omega)
    rw [occAt_drop, show s + (j - s) = j by omega] at this
    exact this
  · intro h
    rcases h with ⟨hsk, hocc, hmin⟩
    have hfind : find2 a b (buf.drop s) = some (k - s) := by
      rw [find2_eq_some_iff]
      constructor
      · rw [occAt_drop, show s + (k - s) = k by omega]
        exact hocc
      · intro j hj
        rw [occAt_drop]
        exact hmin (s + j) (by omega) (by omega)
    rw [hfind]
    simp only [Option.map_some']
    congr 1
    omega

lemma find2_cons_self (a b : Nat) (l : List Nat) : find2 a b (a :: b :: l) = some 0 := by
  simp [find2]

lemma occAt_append_at (u v : List Nat) (a b : Nat) :
    occAt a b (u ++ a :: b :: v) u.length := by
  constructor
  · rw [List.getElem?_append_right (Nat.le_refl _)]
    simp
  · rw [List.getElem?_append_right (by omega)]
    have h : u.length + 1 - u.length = 1 := by omega
    rw [h]
    simp

lemma occAt_append_left {a b : Nat} {u v : List Nat} {j : Nat} (h : j + 2 ≤ u.length) :
    occAt a b (u ++ v) j ↔ occAt a b u j := by
  unfold occAt
  rw [List.getElem?_append_left (by omega), List.getElem?_append_left (by omega)]

lemma extract_nil : extractFrames [] = ([], []) :=
  extractFrames_eq_noSOI (by rw [pyFind_zero]; rfl)

lemma wf_ne_nil {b : List Nat} (hwf : wellFormedJpeg b) : b ≠ [] := by
  obtain ⟨core, rfl⟩ := hwf.1
  simp

/-- Extraction of one complete well-formed frame from the front of the
buffer: the loop finds the start marker at index 0 and the end marker at
the frame's last two bytes, cuts out exactly the frame, and continues on
the remainder. -/
lemma extract_cons {b : List Nat} (hwf : wellFormedJpeg b) (t : List Nat) :
    extractFrames (b ++ t) = (b :: (extractFrames t).1, (extractFrames t).2) := by
  obtain ⟨core, hb⟩ := hwf.1
  have hlen : b.length = core.length + 4 := by rw [hb]; simp
  have h1 : pyFind 0xFF 0xD8 (b ++ t) 0 = some 0 := by
    rw [pyFind_zero, hb]
    simp only [List.cons_append]
    exact find2_cons_self _ _ _
  have hocc : occAt 0xFF 0xD9 (b ++ t) (b.length - 2) := by
    have hrw : b ++ t = (0xFF :: 0xD8 :: core) ++ (0xFF :: 0xD9 :: t) := by
      rw [hb]; simp
    have hidx : b.length - 2 = (0xFF :: 0xD8 :: core).length := by
      simp only [List.length_cons]
      omega
    rw [hrw, hidx]
    exact occAt_append_at _ _ _ _
  have h2 : pyFind 0xFF 0xD9 (b ++ t) (0 + 2) = some (b.length - 2) := by
    rw [pyFind_eq_some_iff]
    refine ⟨by omega, hocc, ?_⟩
    intro j hj hjk hoccj
    have hj2 : j + 2 ≤ b.length := by omega
    exact hwf.2 j (by omega) ((occAt_append_left hj2).mp hoccj)
  have hdrop : (b ++ t).drop (b.length - 2 + 2) = t := by
    rw [show b.length - 2 + 2 = b.length from by omega, List.drop_left]
  have htake : ((b ++ t).take (b.length - 2 + 2)).drop 0 = b := by
    rw [show b.length - 2 + 2 = b.length from by omega, List.take_left, List.drop_zero]
  rw [extractFrames_eq_frame h1 h2, hdrop, htake]

/-- A proper prefix of a well-formed frame that fits in the byte ceiling
is left untouched by the extraction loop: either no start marker is seen
yet, or the start marker is seen but no end marker, and the buffer is not
trimmed. -/
lemma extract_partial {b p : List Nat} (hwf : wellFormedJpeg b) (hpre : p <+: b)
    (hne : p ≠ b) (hmax : p.length ≤ MAX_BUFFER_SIZE) :
    extractFrames p = ([], p) := by
  have hplen : p.length < b.length :=
    lt_of_le_of_ne hpre.length_le (fun h => hne (hpre.eq_of_length h))
  cases p with
  | nil => exact extract_nil
  | cons x p' =>
    cases p' with
    | nil => exact extractFrames_eq_noSOI (by rw [pyFind_zero]; rfl)
    | cons y r =>
      obtain ⟨core, hb⟩ := hwf.1
      obtain ⟨q, hq⟩ := hpre
      rw [hb] at hq
      simp only [List.cons_append] at hq
      injection hq with hx hq'
      injection hq' with hy hq''
      subst hx
      subst hy
      have h1 : pyFind 0xFF 0xD8 (0xFF :: 0xD8 :: r) 0 = some 0 := by
        rw [pyFind_zero]
        exact find2_cons_self _ _ _
      have h2 : pyFind 0xFF 0xD9 (0xFF :: 0xD8 :: r) (0 + 2) = none := by
        rw [pyFind_eq_none_iff]
        intro j _ hocc
        have hj2 := occAt_lt_length hocc
        have hoccb : occAt 0xFF 0xD9 b j := by
          rw [hb, show (0xFF : Nat) :: 0xD8 :: (core ++ [0xFF, 0xD9])
              = (0xFF :: 0xD8 :: r) ++ q from by simp [← hq'']]
          exact (occAt_append_left hj2).mpr hocc
        exact hwf.2 j (by rw [hb] at hplen ⊢; simp only [List.length_cons] at *; omega) hoccb
      rw [extractFrames_eq_noEOI h1 h2, if_neg (by omega)]

/-- Running the extraction loop on any prefix `w` of a concatenation of
well-formed frames (each within the byte ceiling) yields exactly the
complete frames contained in `w`, in order, and leaves the residual
proper prefix of the next frame in the buffer. -/
lemma extract_flatten_aux : ∀ (bs : List (List Nat)),
    (∀ b ∈ bs, wellFormedJpeg b ∧ b.length ≤ MAX_BUFFER_SIZE) →
    ∀ w, w <+: bs.flatten →
    ∃ done rest p, bs = done ++ rest ∧ w = done.flatten ++ p ∧
      extractFrames w = (done, p) ∧
      ((rest = [] ∧ p = []) ∨ ∃ b t, rest = b :: t ∧ p <+: b ∧ p ≠ b)
  | [], _, w, hw => by
      have hwnil : w = [] := by simpa using hw
      subst hwnil
      exact ⟨[], [], [], rfl, rfl, extract_nil, Or.inl ⟨rfl, rfl⟩⟩
  | b :: bs', hwfall, w, hw => by
      have hwfb := hwfall b (List.mem_cons_self b bs')
      rw [List.flatten_cons] at hw
      by_cases hlen : w.length < b.length
      · have hwb : w <+: b :=
          List.prefix_of_prefix_length_le hw (List.prefix_append b bs'.flatten) (by omega)
        have hne : w ≠ b := fun h => by rw [h] at hlen; omega
        have hext := extract_partial hwfb.1 hwb hne (by have := hwfb.2; omega)
        exact ⟨[], b :: bs', w, rfl, by simp, hext, Or.inr ⟨b, bs', rfl, hwb, hne⟩⟩
      · have hbw : b <+: w :=
          List.prefix_of_prefix_length_le (List.prefix_append b bs'.flatten) hw (by omega)
        obtain ⟨w', rfl⟩ := hbw
        have hw' : w' <+: bs'.flatten := (List.prefix_append_right_inj b).mp hw
        obtain ⟨done', rest', p', hbs, hwp, hext, hres⟩ :=
          extract_flatten_aux bs' (fun x hx => hwfall x (List.mem_cons_of_mem b hx)) w' hw'
        refine ⟨b :: done', rest', p', by rw [List.cons_append, hbs], ?_, ?_, hres⟩
        · rw [List.flatten_cons, List.append_assoc, ← hwp]
        · rw [extract_cons hwfb.1 w', hext]

/-- Invariant of the chunk loop: starting from a state whose recorded
frames are the complete frames already consumed and whose buffer is a
proper prefix of the next frame, processing any further chunks keeps that
shape and consumes exactly the appended bytes. -/
lemma processChunks_inv : ∀ (chunks : List (List Nat)) (bs : List (List Nat)),
    (∀ b ∈ bs, wellFormedJpeg b ∧ b.length ≤ MAX_BUFFER_SIZE) →
    ∀ (done rest : List (List Nat)) (p : List Nat),
    bs = done ++ rest →
    ((rest = [] ∧ p = []) ∨ ∃ b t, rest = b :: t ∧ p <+: b ∧ p ≠ b) →
    (done.flatten ++ (p ++ chunks.flatten)) <+: bs.flatten →
    ∃ done2 rest2 p2,
      bs = done2 ++ rest2 ∧
      chunks.foldl processChunk (done, p) = (done2, p2) ∧
      done2.flatten ++ p2 = done.flatten ++ (p ++ chunks.flatten) ∧
      ((rest2 = [] ∧ p2 = []) ∨ ∃ b t, rest2 = b :: t ∧ p2 <+: b ∧ p2 ≠ b)
  | [], bs, _, done, rest, p, hbs, hres, _ => by
      exact ⟨done, rest, p, hbs, rfl, by simp, hres⟩
  | c :: cs, bs, hwf, done, rest, p, hbs, hres, hpref => by
      by_cases hc : c = []
      · subst hc
        have hstep : List.foldl processChunk (done, p) ([] :: cs)
            = List.foldl processChunk (done, p) cs := by
          simp [processChunk]
        rw [hstep]
        have := processChunks_inv cs bs hwf done rest p hbs hres
          (by simpa using hpref)
        simpa using this
      · have hpc : (p ++ c) <+: rest.flatten := by
          have h1 : done.flatten ++ ((p ++ c) ++ cs.flatten) <+: done.flatten ++ rest.flatten := by
            rw [hbs] at hpref
            simpa [List.append_assoc] using hpref
          have h2 : (p ++ c) ++ cs.flatten <+: rest.flatten :=
            (List.prefix_append_right_inj _).mp h1
          exact (List.prefix_append (p ++ c) cs.flatten).trans h2
        have hwfr : ∀ b ∈ rest, wellFormedJpeg b ∧ b.length ≤ MAX_BUFFER_SIZE := by
          intro x hx
          exact hwf x (by rw [hbs]; exact List.mem_append.mpr (Or.inr hx))
        obtain ⟨done', rest'', p', hbs', hwp, hext, hres'⟩ :=
          extract_flatten_aux rest hwfr (p ++ c) hpc
        have hstep : List.foldl processChunk (done, p) (c :: cs)
            = List.foldl processChunk (done ++ done', p') cs := by
          simp only [List.foldl_cons, processChunk, if_neg hc, hext]
        rw [hstep]
        have hbs2 : bs = (done ++ done') ++ rest'' := by
          rw [hbs, hbs', List.append_assoc]
        have hpref2 : (done ++ done').flatten ++ (p' ++ cs.flatten) <+: bs.flatten := by
          have : (done ++ done').flatten ++ (p' ++ cs.flatten)
              = done.flatten ++ (p ++ (c ++ cs.flatten)) := by
            rw [List.flatten_append, List.append_assoc, ← List.append_assoc done'.flatten,
              ← hwp]
            simp [List.append_assoc]
          rw [this]
          simpa [List.append_assoc] using hpref
        obtain ⟨done2, rest2, p2, hbs3, hfold, hflat, hres2⟩ :=
          processChunks_inv cs bs hwf (done ++ done') rest'' p' hbs2 hres' hpref2
        refine ⟨done2, rest2, p2, hbs3, hfold, ?_, hres2⟩
        rw [hflat, List.flatten_append, List.append_assoc, ← List.append_assoc done'.flatten,
          ← hwp]
        simp [List.append_assoc]

/-- C3 (amended): for every stream formed by concatenating well-formed
JPEG blobs, each no longer than the hard byte ceiling `MAX_BUFFER_SIZE`,
the chunked parse loop records exactly the blobs, in order, with
byte-identical payloads, and fully consumes the buffer — regardless of
how the stream is split into chunks. -/
theorem parse_roundtrip (bs chunks : List (List Nat))
    (hwf : ∀ b ∈ bs, wellFormedJpeg b ∧ b.length ≤ MAX_BUFFER_SIZE)
    (hjoin : chunks.flatten = bs.flatten) :
    processStream chunks = (bs, []) := by
  have hres0 : (bs = [] ∧ ([] : List Nat) = []) ∨
      ∃ b t, bs = b :: t ∧ ([] : List Nat) <+: b ∧ ([] : List Nat) ≠ b := by
    cases bs with
    | nil => exact Or.inl ⟨rfl, rfl⟩
    | cons b t =>
      exact Or.inr ⟨b, t, rfl, ⟨b, rfl⟩,
        fun h => wf_ne_nil (hwf b (List.mem_cons_self b t)).1 h.symm⟩
  obtain ⟨done2, rest2, p2, hbs, hfold, hflat, hres⟩ :=
    processChunks_inv chunks bs hwf [] bs [] rfl hres0
      (by simp [hjoin])
  have hfold' : processStream chunks = (done2, p2) := hfold
  have hp2 : p2 = rest2.flatten := by
    have h1 : done2.flatten ++ p2 = done2.flatten ++ rest2.flatten := by
      rw [hflat]
      simp only [List.flatten_nil, List.nil_append]
      rw [hjoin, hbs, List.flatten_append]
    exact List.append_cancel_left h1
  rcases hres with ⟨hrest, hp⟩ | ⟨b, t, hrt, hpre, hne⟩
  · rw [hfold', hp]
    rw [hrest, List.append_nil] at hbs
    rw [hbs]
  · exfalso
    have hlen1 : p2.length ≤ b.length := hpre.length_le
    have hlen2 : p2.length = b.length + t.flatten.length := by
      rw [hp2, hrt, List.flatten_cons]
      simp
    have htnil : t.flatten.length = 0 := by omega
    have hp2b : p2 = b := by
      rw [hp2, hrt, List.flatten_cons, List.length_eq_zero.mp htnil, List.append_nil]
    exact hne hp2b

/-- Witness for C3: one minimal JPEG blob split across three chunks that
each cut through a marker. -/
theorem parse_roundtrip_witness :
    processStream [[0xFF], [0xD8, 0xFF], [0xD9]] = ([[0xFF, 0xD8, 0xFF, 0xD9]], []) :=
  parse_roundtrip [[0xFF, 0xD8, 0xFF, 0xD9]] [[0xFF], [0xD8, 0xFF], [0xD9]]
    (by
      intro b hb
      simp only [List.mem_singleton] at hb
      subst hb
      refine ⟨⟨⟨[], rfl⟩, ?_⟩, by norm_num [MAX_BUFFER_SIZE]⟩
      intro i hi
      simp only [List.length_cons, List.length_nil] at hi
      have h01 : i = 0 ∨ i = 1 := by omega
      rcases h01 with rfl | rfl <;> decide)
    (by simp)

lemma trim_le_max : BUFFER_TRIM_SIZE ≤ MAX_BUFFER_SIZE := by
  norm_num [BUFFER_TRIM_SIZE, MAX_BUFFER_SIZE]

lemma find2_cons_of_ne_head {a b x : Nat} (hx : x ≠ a) (l : List Nat) :
    find2 a b (x :: l) = (find2 a b l).map (· + 1) := by
  cases l with
  | nil => rfl
  | cons y rest =>
    simp only [find2]
    rw [if_neg (fun h => hx h.1)]

lemma eoi_find_zeros : ∀ n : Nat, find2 0xFF 0xD9 (List.replicate n 0) = none
  | 0 => rfl
  | n + 1 => by
      rw [List.replicate_succ, find2_cons_of_ne_head (by decide), eoi_find_zeros n]
      rfl

lemma soi_find_zeros_only : ∀ n : Nat, find2 0xFF 0xD8 (List.replicate n 0) = none
  | 0 => rfl
  | n + 1 => by
      rw [List.replicate_succ, find2_cons_of_ne_head (by decide), soi_find_zeros_only n]
      rfl

lemma soi_find_zeros_eoi : ∀ n : Nat,
    find2 0xFF 0xD8 (List.replicate n 0 ++ [0xFF, 0xD9]) = none
  | 0 => by decide
  | n + 1 => by
      rw [List.replicate_succ, List.cons_append,
        find2_cons_of_ne_head (by decide), soi_find_zeros_eoi n]
      rfl

lemma drop_replicate (a : Nat) : ∀ (i n : Nat),
    (List.replicate n a).drop i = List.replicate (n - i) a
  | 0, n => by simp
  | i + 1, 0 => by simp
  | i + 1, n + 1 => by
      rw [List.replicate_succ, List.drop_succ_cons, drop_replicate a i n]
      congr 1
      omega

/-- An oversized JPEG blob: a frame of `MAX_BUFFER_SIZE + 4` bytes. -/
def cexBlob : List Nat := 0xFF :: 0xD8 :: (List.replicate MAX_BUFFER_SIZE 0 ++ [0xFF, 0xD9])

/-- First chunk of the adversarial split: everything except the end marker. -/
def cexChunk1 : List Nat := 0xFF :: 0xD8 :: List.replicate MAX_BUFFER_SIZE 0

/-- Second chunk of the adversarial split: the end marker alone. -/
def cexChunk2 : List Nat := [0xFF, 0xD9]


lemma drop_two_cons {x y : Nat} (l : List Nat) : (x :: y :: l).drop 2 = l := rfl

lemma cexChunk1_length : cexChunk1.length = MAX_BUFFER_SIZE + 2 := by
  show (0xFF :: 0xD8 :: List.replicate MAX_BUFFER_SIZE 0).length = MAX_BUFFER_SIZE + 2
  rw [List.length_cons, List.length_cons, List.length_replicate]

lemma extract_cexChunk1 :
    extractFrames cexChunk1 = ([], List.replicate BUFFER_TRIM_SIZE 0) := by
  have h1 : pyFind 0xFF 0xD8 cexChunk1 0 = some 0 := by
    rw [pyFind_zero]
    exact find2_cons_self _ _ _
  have hdrop : cexChunk1.drop (0 + 2) = List.replicate MAX_BUFFER_SIZE 0 := by
    show (0xFF :: 0xD8 :: List.replicate MAX_BUFFER_SIZE 0).drop 2 = _
    exact drop_two_cons _
  have h2 : pyFind 0xFF 0xD9 cexChunk1 (0 + 2) = none := by
    unfold pyFind
    rw [hdrop, eoi_find_zeros]
    rfl
  rw [extractFrames_eq_noEOI h1 h2]
  have htm := trim_le_max
  have hstep : cexChunk1.drop (cexChunk1.length - BUFFER_TRIM_SIZE)
      = List.replicate BUFFER_TRIM_SIZE 0 := by
    rw [cexChunk1_length, show MAX_BUFFER_SIZE + 2 - BUFFER_TRIM_SIZE
      = ((MAX_BUFFER_SIZE - BUFFER_TRIM_SIZE) + 1) + 1 from by omega]
    show (0xFF :: 0xD8 :: List.replicate MAX_BUFFER_SIZE 0).drop _ = _
    rw [List.drop_succ_cons, List.drop_succ_cons, drop_replicate,
      show MAX_BUFFER_SIZE - (MAX_BUFFER_SIZE - BUFFER_TRIM_SIZE) = BUFFER_TRIM_SIZE
        from by omega]
  rw [if_pos (by rw [cexChunk1_length]; omega), hstep]

lemma extract_cexChunk2 :
    extractFrames (List.replicate BUFFER_TRIM_SIZE 0 ++ cexChunk2)
      = ([], List.replicate BUFFER_TRIM_SIZE 0 ++ cexChunk2) :=
  extractFrames_eq_noSOI (by rw [pyFind_zero]; exact soi_find_zeros_eoi _)

lemma cexBlob_length : cexBlob.length = MAX_BUFFER_SIZE + 4 := by
  show (0xFF :: 0xD8 :: (List.replicate MAX_BUFFER_SIZE 0 ++ [0xFF, 0xD9])).length
    = MAX_BUFFER_SIZE + 4
  rw [List.length_cons, List.length_cons, List.length_append, List.length_replicate]
  rfl

lemma cexBlob_getElem_two (j : Nat) (hj : j < MAX_BUFFER_SIZE) :
    cexBlob[j + 1 + 1]? = some 0 := by
  show (0xFF :: 0xD8 :: (List.replicate MAX_BUFFER_SIZE 0 ++ [0xFF, 0xD9]))[j + 1 + 1]? = _
  rw [List.getElem?_cons_succ, List.getElem?_cons_succ,
    List.getElem?_append_left (by rw [List.length_replicate]; exact hj),
    List.getElem?_replicate_of_lt hj]

lemma cexBlob_getElem_one : cexBlob[0 + 1]? = some 0xD8 := by
  show (0xFF :: 0xD8 :: (List.replicate MAX_BUFFER_SIZE 0 ++ [0xFF, 0xD9]))[0 + 1]? = _
  rw [List.getElem?_cons_succ, List.getElem?_cons_zero]

lemma cexBlob_wf : wellFormedJpeg cexBlob := by
  refine ⟨⟨List.replicate MAX_BUFFER_SIZE 0, rfl⟩, ?_⟩
  intro i hi hocc
  rcases hocc with ⟨h1, h2⟩
  rw [cexBlob_length] at hi
  match i, hi, h1, h2 with
  | 0, _, h1, h2 =>
    rw [cexBlob_getElem_one] at h2
    exact absurd (Option.some.inj h2) (by decide)
  | 1, _, h1, h2 =>
    rw [show (1 : Nat) = 0 + 1 from rfl, cexBlob_getElem_one] at h1
    exact absurd (Option.some.inj h1) (by decide)
  | (j + 2), hj, h1, h2 =>
    have hj' : j < MAX_BUFFER_SIZE := by omega
    rw [show j + 2 = j + 1 + 1 from by omega, cexBlob_getElem_two j hj'] at h1
    exact absurd (Option.some.inj h1) (by decide)

/-- Counterexample to C3 as stated: a single well-formed JPEG blob larger
than the byte ceiling, split so that the end marker arrives in a later
chunk, makes the parse loop trim away the partial frame and record zero
frames instead of one. -/
theorem parse_roundtrip_cex :
    wellFormedJpeg cexBlob ∧
    List.flatten [cexChunk1, cexChunk2] = List.flatten [cexBlob] ∧
    (processStream [cexChunk1, cexChunk2]).1 = [] := by
  refine ⟨cexBlob_wf, ?_, ?_⟩
  · rw [show List.flatten [cexChunk1, cexChunk2] = cexChunk1 ++ (cexChunk2 ++ []) from rfl,
      show List.flatten [cexBlob] = cexBlob ++ [] from rfl,
      List.append_nil, List.append_nil,
      show cexChunk1 = 0xFF :: 0xD8 :: List.replicate MAX_BUFFER_SIZE 0 from rfl,
      show cexBlob = 0xFF :: 0xD8 :: (List.replicate MAX_BUFFER_SIZE 0 ++ [0xFF, 0xD9])
        from rfl,
      List.cons_append, List.cons_append]
    rfl
  · have hc1 : cexChunk1 ≠ [] := List.cons_ne_nil _ _
    have hc2 : cexChunk2 ≠ [] := List.cons_ne_nil _ _
    show (processChunk (processChunk ([], []) cexChunk1) cexChunk2).1 = []
    rw [show processChunk ([], []) cexChunk1
        = (([] : List (List Nat)) ++ (extractFrames (([] : List Nat) ++ cexChunk1)).1,
           (extractFrames (([] : List Nat) ++ cexChunk1)).2) from by
      rw [processChunk, if_neg hc1]]
    rw [List.nil_append, List.nil_append, extract_cexChunk1]
    rw [show processChunk (([] : List (List Nat)), List.replicate BUFFER_TRIM_SIZE 0) cexChunk2
        = (([] : List (List Nat)) ++ (extractFrames (List.replicate BUFFER_TRIM_SIZE 0 ++ cexChunk2)).1,
           (extractFrames (List.replicate BUFFER_TRIM_SIZE 0 ++ cexChunk2)).2) from by
      rw [processChunk, if_neg hc2]]
    rw [extract_cexChunk2]
    rfl

set_option maxRecDepth 4000 in
lemma extractFrames_big_no_soi :
    ∀ (n : Nat) (buf : List Nat), buf.length ≤ n →
    MAX_BUFFER_SIZE < (extractFrames buf).2.length →
    find2 0xFF 0xD8 (extractFrames buf).2 = none
  | 0, buf, hlen, h => by
      have hbuf : buf = [] := List.length_eq_zero.mp (by omega)
      subst hbuf
      rw [extract_nil] at h
      simp at h
  | n + 1, buf, hlen, h => by
      cases hsoi : pyFind 0xFF 0xD8 buf 0 with
      | none =>
        have hsnd : (extractFrames buf).2 = buf := by
          rw [extractFrames_eq_noSOI hsoi]
        rw [hsnd] at h ⊢
        rwa [← pyFind_zero]
      | some s =>
        cases heoi : pyFind 0xFF 0xD9 buf (s + 2) with
        | none =>
          have hsnd : (extractFrames buf).2 = if MAX_BUFFER_SIZE < buf.length
              then buf.drop (buf.length - BUFFER_TRIM_SIZE) else buf := by
            rw [extractFrames_eq_noEOI hsoi heoi]
          rw [hsnd] at h ⊢
          by_cases hbig : MAX_BUFFER_SIZE < buf.length
          · rw [if_pos hbig] at h
            exfalso
            have htm := trim_le_max
            have hd := List.length_drop (buf.length - BUFFER_TRIM_SIZE) buf
            omega
          · rw [if_neg hbig] at h
            exact absurd h hbig
        | some e =>
          have hsnd : (extractFrames buf).2 = (extractFrames (buf.drop (e + 2))).2 := by
            rw [extractFrames_eq_frame hsoi heoi]
          rw [hsnd] at h ⊢
          have hb := pyFind_some_le_length heoi
          exact extractFrames_big_no_soi n (buf.drop (e + 2))
            (by rw [List.length_drop]; omega) h

lemma processChunks_big_no_soi :
    ∀ (chunks : List (List Nat)) (st : List (List Nat) × List Nat),
    (MAX_BUFFER_SIZE < st.2.length → find2 0xFF 0xD8 st.2 = none) →
    MAX_BUFFER_SIZE < (chunks.foldl processChunk st).2.length →
    find2 0xFF 0xD8 (chunks.foldl processChunk st).2 = none
  | [], st, hst => hst
  | c :: cs, st, hst => by
      apply processChunks_big_no_soi cs
      by_cases hc : c = []
      · subst hc
        simpa [processChunk] using hst
      · intro h
        have hmk : (processChunk st c).2 = (extractFrames (st.2 ++ c)).2 := by
          simp [processChunk, hc]
        rw [hmk] at h ⊢
        exact extractFrames_big_no_soi (st.2 ++ c).length _ (Nat.le_refl _) h

/-- C4 (amended): the accumulation buffer can exceed the hard byte
ceiling only while it contains no JPEG start marker; whenever the buffer
holds a start marker with no subsequent end marker and exceeds the
ceiling, it is truncated to its most recent `BUFFER_TRIM_SIZE` trailing
bytes, and ingestion (a total function here) never crashes. -/
theorem buffer_bound (chunks : List (List Nat)) :
    (MAX_BUFFER_SIZE < (processStream chunks).2.length →
      find2 0xFF 0xD8 (processStream chunks).2 = none) ∧
    (∀ (buf : List Nat) (s : Nat), pyFind 0xFF 0xD8 buf 0 = some s →
      pyFind 0xFF 0xD9 buf (s + 2) = none → MAX_BUFFER_SIZE < buf.length →
      extractFrames buf = ([], buf.drop (buf.length - BUFFER_TRIM_SIZE))) := by
  constructor
  · exact processChunks_big_no_soi chunks ([], [])
      (fun h => absurd h (by simp))
  · intro buf s h1 h2 h3
    rw [extractFrames_eq_noEOI h1 h2, if_pos h3]

lemma replicate_big_ne_nil : List.replicate (MAX_BUFFER_SIZE + 1) (0 : Nat) ≠ [] := by
  intro h
  have := congrArg List.length h
  rw [List.length_replicate] at this
  simp at this

lemma extract_replicate_big :
    extractFrames (List.replicate (MAX_BUFFER_SIZE + 1) 0)
      = ([], List.replicate (MAX_BUFFER_SIZE + 1) 0) :=
  extractFrames_eq_noSOI (by rw [pyFind_zero]; exact soi_find_zeros_only _)

lemma processStream_zeros :
    processStream [List.replicate (MAX_BUFFER_SIZE + 1) 0]
      = ([], List.replicate (MAX_BUFFER_SIZE + 1) 0) := by
  have h : processStream [List.replicate (MAX_BUFFER_SIZE + 1) 0]
      = (([] : List (List Nat))
          ++ (extractFrames ([] ++ List.replicate (MAX_BUFFER_SIZE + 1) 0)).1,
         (extractFrames ([] ++ List.replicate (MAX_BUFFER_SIZE + 1) 0)).2) := by
    show processChunk ([], []) (List.replicate (MAX_BUFFER_SIZE + 1) 0) = _
    rw [processChunk, if_neg replicate_big_ne_nil]
  rw [h, show ([] : List Nat) ++ List.replicate (MAX_BUFFER_SIZE + 1) 0
      = List.replicate (MAX_BUFFER_SIZE + 1) 0 from List.nil_append _,
    extract_replicate_big]
  rfl

/-- Counterexample to C4 as stated: a stream containing no start marker
at all (all zero bytes, one byte over the ceiling) is never truncated:
the buffer ends strictly larger than both the ceiling and the trim size,
so the accumulation buffer does grow beyond the configured ceiling. -/
theorem buffer_bound_cex :
    (processStream [List.replicate (MAX_BUFFER_SIZE + 1) 0]).2.length
      = MAX_BUFFER_SIZE + 1 ∧
    MAX_BUFFER_SIZE < (processStream [List.replicate (MAX_BUFFER_SIZE + 1) 0]).2.length ∧
    BUFFER_TRIM_SIZE < (processStream [List.replicate (MAX_BUFFER_SIZE + 1) 0]).2.length := by
  have hlen : (processStream [List.replicate (MAX_BUFFER_SIZE + 1) 0]).2.length
      = MAX_BUFFER_SIZE + 1 := by
    rw [processStream_zeros]
    exact List.length_replicate _ _
  refine ⟨hlen, ?_, ?_⟩
  · rw [hlen]
    omega
  · rw [hlen]
    have := trim_le_max
    omega

/-- Witness for C4 at concrete inputs: the over-ceiling zero stream on
the first clause, and an over-ceiling buffer with a start marker and no
end marker on the truncation clause. -/
theorem buffer_bound_witness :
    find2 0xFF 0xD8 (processStream [List.replicate (MAX_BUFFER_SIZE + 1) 0]).2 = none ∧
    extractFrames (0xFF :: 0xD8 :: List.replicate (MAX_BUFFER_SIZE + 1) 0)
      = ([], (0xFF :: 0xD8 :: List.replicate (MAX_BUFFER_SIZE + 1) 0).drop
          ((0xFF :: 0xD8 :: List.replicate (MAX_BUFFER_SIZE + 1) 0).length
            - BUFFER_TRIM_SIZE)) := by
  constructor
  · exact (buffer_bound [List.replicate (MAX_BUFFER_SIZE + 1) 0]).1
      (by rw [processStream_zeros, List.length_replicate]; omega)
  · refine (buffer_bound []).2 (0xFF :: 0xD8 :: List.replicate (MAX_BUFFER_SIZE + 1) 0) 0
      (by rw [pyFind_zero]; exact find2_cons_self _ _ _) ?_ ?_
    · unfold pyFind
      rw [show (0xFF :: 0xD8 :: List.replicate (MAX_BUFFER_SIZE + 1) 0).drop (0 + 2)
          = List.replicate (MAX_BUFFER_SIZE + 1) 0 from drop_two_cons _,
        eoi_find_zeros]
      rfl
    · rw [List.length_cons, List.length_cons, List.length_replicate]
      omega

/-- Witness for C7: the digit of the length field for a one-byte payload
is an ASCII digit. -/
theorem multipart_frame_spec_witness : 48 ≤ 49 ∧ 49 ≤ 57 :=
  (multipart_frame_spec [9]).2.2 49 (by
    rw [show ([9] : List Nat).length = 1 from rfl,
      show str_of_nat 1 = [49] from by
        rw [str_of_nat, show decDigits 1 = [1] from by rw [decDigits]; simp]
        simp]
    simp)
